import Mathlib

/-
Shallow embedding of the TADbit core (src/tadbit.c) and proofs about it.

Modelling conventions:
* C `double` values flowing through the breakpoint search are modelled by
  `RVal`: the NAN sentinel, -INFINITY, or an exact finite value (a rational).
  Floating-point rounding and overflow are not modelled; the claims under
  study are structural (index ranges, sentinel propagation, buffer sizes,
  convergence tests), not about rounding.
* Flat C arrays are modelled as total functions from `ℕ`; the program only
  ever reads indices it has written (or initialised), which the proofs track.
* `exp` is kept abstract: every definition that calls it is parametrised by
  a function `E : ℚ → ℚ`.  All theorems hold for every `E`, hence in
  particular for the real exponential.
* The unbounded `while` loops of `ml_ab` and `get_breakpoints` are given a
  fuel parameter and return `Option`; `none` models non-termination within
  the allotted fuel.  For `get_breakpoints` the fuel `n + 1` is proved
  sufficient.
-/

namespace Tadbit

/-- Value model for the C doubles used by the breakpoint search: the
not-a-number sentinel, minus infinity, or an exact finite value. -/
inductive RVal where
  | nan : RVal
  | neginf : RVal
  | fin : ℚ → RVal
deriving DecidableEq

/-- IEEE addition on the values tadbit.c produces (no +INFINITY ever
arises): NaN absorbs, otherwise -INFINITY absorbs. -/
def RVal.add : RVal → RVal → RVal
  | .nan, _ => .nan
  | _, .nan => .nan
  | .neginf, _ => .neginf
  | _, .neginf => .neginf
  | .fin a, .fin b => .fin (a + b)

/-- IEEE strict `<`: any comparison with NaN is false. -/
def RVal.lt : RVal → RVal → Bool
  | .nan, _ => false
  | _, .nan => false
  | .neginf, .neginf => false
  | .neginf, .fin _ => true
  | .fin _, .neginf => false
  | .fin a, .fin b => decide (a < b)

theorem RVal.lt_nan_right (x : RVal) : RVal.lt x RVal.nan = false := by
  cases x <;> rfl

theorem RVal.lt_irrefl (x : RVal) : RVal.lt x x = false := by
  cases x <;> simp [RVal.lt]

theorem RVal.add_eq_fin {x y : RVal} {q : ℚ} (h : RVal.add x y = RVal.fin q) :
    ∃ a b : ℚ, x = RVal.fin a ∧ y = RVal.fin b ∧ q = a + b := by
  cases x <;> cases y <;> simp_all [RVal.add]

theorem RVal.add_nan_of_nan {x y : RVal} (h : x = RVal.nan ∨ y = RVal.nan) :
    RVal.add x y = RVal.nan := by
  rcases h with h | h
  · subst h
    cases y <;> rfl
  · subst h
    cases x <;> rfl

theorem RVal.lt_trans {x y z : RVal} (h1 : RVal.lt x y = true)
    (h2 : RVal.lt y z = true) : RVal.lt x z = true := by
  cases x <;> cases y <;> cases z <;> simp_all [RVal.lt]
  exact h1.trans h2

/-! ## MatrixSegmenter: `break_in_blocks` (src/tadbit.c lines 93-130)

The C routine walks columns `col = i .. j`; for each column it appends
`mat[row + col*n]` for rows `0 .. i-1` to the top block, rows `i .. col-1`
to the triangular block and rows `j+1 .. n-1` to the bottom block.  Each
append is one write at the next free position of the block buffer, so the
emitted block is exactly the list of visited entries in visit order. -/

/-- Column indices `col = i, ..., j` visited by `break_in_blocks`. -/
def blockCols (i j : ℕ) : List ℕ := List.range' i (j + 1 - i)

/-- Matrix positions (row, col) copied to the top block. -/
def topPositions (i j : ℕ) : List (ℕ × ℕ) :=
  (blockCols i j).flatMap fun col => (List.range i).map fun row => (row, col)

/-- Matrix positions (row, col) copied to the triangular block. -/
def triPositions (i j : ℕ) : List (ℕ × ℕ) :=
  (blockCols i j).flatMap fun col => (List.range' i (col - i)).map fun row => (row, col)

/-- Matrix positions (row, col) copied to the bottom block. -/
def botPositions (n i j : ℕ) : List (ℕ × ℕ) :=
  (blockCols i j).flatMap fun col => (List.range' (j + 1) (n - (j + 1))).map fun row => (row, col)

/-- Flat column-major read `mat[row + col*n]` (src/tadbit.c line 113). -/
def matAt (mat : ℕ → ℚ) (n : ℕ) (rc : ℕ × ℕ) : ℚ := mat (rc.1 + rc.2 * n)

/-- Contents of the top block after one call (src/tadbit.c lines 112-114). -/
def break_top (mat : ℕ → ℚ) (n i j : ℕ) : List ℚ := (topPositions i j).map (matAt mat n)

/-- Contents of the triangular block after one call (lines 117-119). -/
def break_tri (mat : ℕ → ℚ) (n i j : ℕ) : List ℚ := (triPositions i j).map (matAt mat n)

/-- Contents of the bottom block after one call (lines 122-124). -/
def break_bot (mat : ℕ → ℚ) (n i j : ℕ) : List ℚ := (botPositions n i j).map (matAt mat n)

/-- The three blocks produced by one call of `break_in_blocks`. -/
def break_in_blocks (mat : ℕ → ℚ) (n i j : ℕ) : List ℚ × List ℚ × List ℚ :=
  (break_top mat n i j, break_tri mat n i j, break_bot mat n i j)

theorem blockCols_length (i j : ℕ) : (blockCols i j).length = j + 1 - i := by
  simp [blockCols]

theorem mem_blockCols {i j c : ℕ} (hij : i ≤ j) :
    c ∈ blockCols i j ↔ i ≤ c ∧ c ≤ j := by
  simp only [blockCols, List.mem_range'_1]
  omega

theorem topPositions_length (i j : ℕ) :
    (topPositions i j).length = (j + 1 - i) * i := by
  simp [topPositions, List.length_flatMap, Function.comp_def, blockCols,
    List.map_const', List.sum_replicate, smul_eq_mul]

theorem botPositions_length (n i j : ℕ) :
    (botPositions n i j).length = (j + 1 - i) * (n - (j + 1)) := by
  simp [botPositions, List.length_flatMap, Function.comp_def, blockCols,
    List.map_const', List.sum_replicate, smul_eq_mul]

theorem sum_list_range_two (w : ℕ) : (List.range w).sum * 2 = w * (w - 1) := by
  induction w with
  | zero => rfl
  | succ n ih =>
    rw [List.range_succ, List.sum_append, Nat.add_mul, ih]
    cases n with
    | zero => rfl
    | succ m =>
      simp only [Nat.succ_sub_one, List.sum_cons, List.sum_nil]
      ring

theorem sum_list_range (w : ℕ) : (List.range w).sum = w * (w - 1) / 2 := by
  rw [← sum_list_range_two, Nat.mul_div_cancel _ (by norm_num)]

theorem triPositions_length (i j : ℕ) (hij : i ≤ j) :
    (triPositions i j).length = (j - i) * (j - i + 1) / 2 := by
  have hmap : (blockCols i j).map (fun c => c - i) = List.range (j + 1 - i) := by
    rw [blockCols, List.range'_eq_map_range, List.map_map]
    have hid : ((fun c => c - i) ∘ (fun x => i + x)) = id := by
      funext x
      simp
    rw [hid, List.map_id]
  have h1 : (triPositions i j).length = ((blockCols i j).map (fun c => c - i)).sum := by
    simp [triPositions, List.length_flatMap, Function.comp_def]
  rw [h1, hmap, sum_list_range]
  have hw : j + 1 - i = (j - i) + 1 := by omega
  rw [hw]
  simp [Nat.mul_comm]

theorem mem_topPositions {i j : ℕ} {p : ℕ × ℕ} :
    p ∈ topPositions i j ↔ p.1 < i ∧ p.2 ∈ blockCols i j := by
  cases p with
  | mk r c =>
    simp only [topPositions, List.mem_flatMap, List.mem_map, List.mem_range,
      Prod.mk.injEq]
    constructor
    · rintro ⟨col, hcol, row, hrow, rfl, rfl⟩
      exact ⟨hrow, hcol⟩
    · rintro ⟨hr, hc⟩
      exact ⟨c, hc, r, hr, rfl, rfl⟩

theorem mem_triPositions {i j : ℕ} {p : ℕ × ℕ} :
    p ∈ triPositions i j ↔ i ≤ p.1 ∧ p.1 < p.2 ∧ p.2 ∈ blockCols i j := by
  cases p with
  | mk r c =>
    simp only [triPositions, List.mem_flatMap, List.mem_map, List.mem_range'_1,
      Prod.mk.injEq]
    constructor
    · rintro ⟨col, hcol, row, hrow, rfl, rfl⟩
      exact ⟨hrow.1, by omega, hcol⟩
    · rintro ⟨h1, h2, hc⟩
      exact ⟨c, hc, r, ⟨h1, by omega⟩, rfl, rfl⟩

theorem mem_botPositions {n i j : ℕ} {p : ℕ × ℕ} :
    p ∈ botPositions n i j ↔ j + 1 ≤ p.1 ∧ p.1 < n ∧ p.2 ∈ blockCols i j := by
  cases p with
  | mk r c =>
    simp only [botPositions, List.mem_flatMap, List.mem_map, List.mem_range'_1,
      Prod.mk.injEq]
    constructor
    · rintro ⟨col, hcol, row, hrow, rfl, rfl⟩
      exact ⟨hrow.1, by omega, hcol⟩
    · rintro ⟨h1, h2, hc⟩
      exact ⟨c, hc, r, ⟨h1, by omega⟩, rfl, rfl⟩

theorem posList_nodup_aux {l : List ℕ} (hl : l.Nodup) (rows : ℕ → List ℕ)
    (hrows : ∀ c, (rows c).Nodup) :
    (l.flatMap fun col => (rows col).map fun row => (row, col)).Nodup := by
  rw [List.nodup_flatMap]
  constructor
  · intro c _
    exact (hrows c).map fun r1 r2 h => (Prod.mk.injEq .. ▸ h).1
  · have : ∀ c1 c2 : ℕ, c1 ≠ c2 →
        ((rows c1).map fun row => (row, c1)).Disjoint ((rows c2).map fun row => (row, c2)) := by
      intro c1 c2 hne p hp1 hp2
      simp only [List.mem_map] at hp1 hp2
      obtain ⟨r1, _, rfl⟩ := hp1
      obtain ⟨r2, _, h2⟩ := hp2
      exact hne ((Prod.mk.injEq .. ▸ h2).2).symm
    exact List.Pairwise.imp_of_mem (fun {a b} _ _ hne => this a b hne) hl

theorem topPositions_nodup (i j : ℕ) : (topPositions i j).Nodup :=
  posList_nodup_aux (List.nodup_range' ..) _ (fun _ => List.nodup_range _)

theorem triPositions_nodup (i j : ℕ) : (triPositions i j).Nodup :=
  posList_nodup_aux (List.nodup_range' ..) _ (fun _ => List.nodup_range' ..)

theorem botPositions_nodup (n i j : ℕ) : (botPositions n i j).Nodup :=
  posList_nodup_aux (List.nodup_range' ..) _ (fun _ => List.nodup_range' ..)

/-- Uniqueness of the flat column-major index decomposition. -/
theorem flat_index_inj {n i j p q : ℕ} (hi : i < n) (hp : p < n)
    (h : i + j * n = p + q * n) : i = p ∧ j = q := by
  have h1 : i = p := by
    have e1 : (i + j * n) % n = i := by
      rw [Nat.add_mul_mod_self_right, Nat.mod_eq_of_lt hi]
    have e2 : (p + q * n) % n = p := by
      rw [Nat.add_mul_mod_self_right, Nat.mod_eq_of_lt hp]
    rw [← e1, ← e2, h]
  refine ⟨h1, ?_⟩
  have h2 : j * n = q * n := by omega
  exact Nat.eq_of_mul_eq_mul_right (by omega) h2

/-- Claim C5: one call of the matrix segmenter emits exactly
`i*(j-i+1)` top values, `(j-i)*(j-i+1)/2` triangular values and
`(n-j-1)*(j-i+1)` bottom values; the three source regions are pairwise
disjoint and each region is enumerated without repetition, so every matrix
entry is copied into at most one output sequence and no output position is
written more than once per call. -/
theorem claim_C5 (mat : ℕ → ℚ) (n i j : ℕ) (hij : i < j) (hj : j ≤ n - 1) :
    (break_top mat n i j).length = i * (j - i + 1) ∧
    (break_tri mat n i j).length = (j - i) * (j - i + 1) / 2 ∧
    (break_bot mat n i j).length = (n - j - 1) * (j - i + 1) ∧
    (topPositions i j).Nodup ∧
    (triPositions i j).Nodup ∧
    (botPositions n i j).Nodup ∧
    (∀ p : ℕ × ℕ, ¬(p ∈ topPositions i j ∧ p ∈ triPositions i j)) ∧
    (∀ p : ℕ × ℕ, ¬(p ∈ topPositions i j ∧ p ∈ botPositions n i j)) ∧
    (∀ p : ℕ × ℕ, ¬(p ∈ triPositions i j ∧ p ∈ botPositions n i j)) := by
  refine ⟨?_, ?_, ?_, topPositions_nodup i j, triPositions_nodup i j,
    botPositions_nodup n i j, ?_, ?_, ?_⟩
  · rw [break_top, List.length_map, topPositions_length]
    have : j + 1 - i = j - i + 1 := by omega
    rw [this, Nat.mul_comm]
  · rw [break_tri, List.length_map, triPositions_length i j (Nat.le_of_lt hij)]
  · rw [break_bot, List.length_map, botPositions_length]
    have h1 : j + 1 - i = j - i + 1 := by omega
    have h2 : n - (j + 1) = n - j - 1 := by omega
    rw [h1, h2, Nat.mul_comm]
  · rintro p ⟨h1, h2⟩
    rw [mem_topPositions] at h1
    rw [mem_triPositions] at h2
    omega
  · rintro p ⟨h1, h2⟩
    rw [mem_topPositions] at h1
    rw [mem_botPositions] at h2
    omega
  · rintro p ⟨h1, h2⟩
    rw [mem_triPositions] at h1
    rw [mem_botPositions] at h2
    have := (mem_blockCols (Nat.le_of_lt hij)).mp h1.2.2
    omega

/-- Witness for C5 at the concrete instance n = 5, i = 1, j = 3. -/
theorem claim_C5_witness :
    (break_top (fun _ => (0 : ℚ)) 5 1 3).length = 1 * (3 - 1 + 1) :=
  (claim_C5 (fun _ => (0 : ℚ)) 5 1 3 (by decide) (by decide)).1

/-- Top-block buffer capacity allocated by the orchestrator
(src/tadbit.c lines 316 and 321): `(n+1)*(n+1)/4` doubles. -/
def topCapacity (n : ℕ) : ℕ := (n + 1) * (n + 1) / 4

/-- Triangular-block buffer capacity (lines 317 and 322): `n*(n+1)/2`. -/
def triCapacity (n : ℕ) : ℕ := n * (n + 1) / 2

/-- Bottom-block buffer capacity (lines 318 and 323): `(n+1)*(n+1)/4`. -/
def botCapacity (n : ℕ) : ℕ := (n + 1) * (n + 1) / 4

theorem four_mul_le_sq_add (a b : ℕ) : 4 * (a * b) ≤ (a + b) * (a + b) := by
  nlinarith [two_mul_le_add_sq a b, sq_nonneg (a + b)]

/-- Claim C9: for every admissible pair `0 ≤ i < j ≤ n-1` the number of
values the segmenter writes into each block is at most the corresponding
buffer capacity allocated once by the orchestrator, so no call writes past
the end of a block buffer. -/
theorem claim_C9 (mat : ℕ → ℚ) (n i j : ℕ) (hij : i < j) (hj : j ≤ n - 1) :
    (break_top mat n i j).length ≤ topCapacity n ∧
    (break_tri mat n i j).length ≤ triCapacity n ∧
    (break_bot mat n i j).length ≤ botCapacity n := by
  have hn : j + 1 ≤ n := by omega
  obtain ⟨h1, h2, h3, -⟩ := claim_C5 mat n i j hij hj
  refine ⟨?_, ?_, ?_⟩
  · rw [h1, topCapacity, Nat.le_div_iff_mul_le (by norm_num)]
    have e1 : i + (j - i + 1) = j + 1 := by omega
    calc i * (j - i + 1) * 4 = 4 * (i * (j - i + 1)) := by ring
      _ ≤ (i + (j - i + 1)) * (i + (j - i + 1)) := four_mul_le_sq_add _ _
      _ = (j + 1) * (j + 1) := by rw [e1]
      _ ≤ (n + 1) * (n + 1) := Nat.mul_le_mul (by omega) (by omega)
  · rw [h2, triCapacity]
    exact Nat.div_le_div_right (Nat.mul_le_mul (by omega) (by omega))
  · rw [h3, botCapacity, Nat.le_div_iff_mul_le (by norm_num)]
    have e1 : (n - j - 1) + (j - i + 1) = n - i := by omega
    calc (n - j - 1) * (j - i + 1) * 4 = 4 * ((n - j - 1) * (j - i + 1)) := by ring
      _ ≤ ((n - j - 1) + (j - i + 1)) * ((n - j - 1) + (j - i + 1)) := four_mul_le_sq_add _ _
      _ = (n - i) * (n - i) := by rw [e1]
      _ ≤ (n + 1) * (n + 1) := Nat.mul_le_mul (by omega) (by omega)

/-- Witness for C9 at the concrete instance n = 5, i = 1, j = 3. -/
theorem claim_C9_witness :
    (break_tri (fun _ => (0 : ℚ)) 5 1 3).length ≤ triCapacity 5 :=
  (claim_C9 (fun _ => (0 : ℚ)) 5 1 3 (by decide) (by decide)).2.1

/-! ## PoissonDecayFitter: `ml_ab` (src/tadbit.c lines 21-91)

`ml_ab` is modelled over exact rationals, parametrised by an abstract
exponential `E : ℚ → ℚ`; every theorem below holds for any `E`.  The two
unbounded `while` loops carry fuel and return `none` on exhaustion.  The
counts `k` and distances `d` are zipped, so a call with empty sequences
reads no element of either. -/

/-- TOLERANCE constant (src/tadbit.c line 7): 1e-6. -/
def TOLERANCE : ℚ := 1 / 1000000

/-- One pass of `recompute_fg` (lines 38-45) evaluated at (a, b):
f accumulates `E(a + b*d) - k`, g accumulates `(E(a + b*d) - k) * d`. -/
def fgSum (E : ℚ → ℚ) (kd : List (ℚ × ℚ)) (a b : ℚ) : ℚ × ℚ :=
  kd.foldl (fun fg p =>
    (fg.1 + (E (a + b * p.2) - p.1), fg.2 + (E (a + b * p.2) - p.1) * p.2)) (0, 0)

/-- Jacobian sums of lines 53-60: (dfda, dgda, dgdb); dfdb is set to dgda. -/
def derivSums (E : ℚ → ℚ) (kd : List (ℚ × ℚ)) (a b : ℚ) : ℚ × ℚ × ℚ :=
  kd.foldl (fun s p =>
    (s.1 + E (a + b * p.2), s.2.1 + E (a + b * p.2) * p.2,
     s.2.2 + E (a + b * p.2) * p.2 * p.2)) (0, 0, 0)

/-- Fitted log-likelihood of lines 81-84: Σ E(a+b*d) + k*(a+b*d). -/
def poissonLLik (E : ℚ → ℚ) (kd : List (ℚ × ℚ)) (a b : ℚ) : ℚ :=
  kd.foldl (fun s p => s + (E (a + b * p.2) + p.1 * (a + b * p.2))) 0

/-- Backtracking line search of lines 68-72: halve the step and recompute
(f, g) until the squared score norm no longer exceeds `oldgrad`. -/
def halveLoop (E : ℚ → ℚ) (kd : List (ℚ × ℚ)) (a b oldgrad : ℚ) :
    ℕ → ℚ → ℚ → ℚ → ℚ → Option (ℚ × ℚ × ℚ × ℚ)
  | 0, da, db, f, g =>
    if f * f + g * g ≤ oldgrad then some (da, db, f, g) else none
  | fuel + 1, da, db, f, g =>
    if f * f + g * g ≤ oldgrad then some (da, db, f, g)
    else
      let fg := fgSum E kd (a + da / 2) (b + db / 2)
      halveLoop E kd a b oldgrad fuel (da / 2) (db / 2) fg.1 fg.2

/-- Newton-Raphson outer loop of lines 50-78.  At every entry (f, g) are
the score sums at the current (a, b); the loop exits as soon as
`f*f + g*g` no longer exceeds TOLERANCE. -/
def mlLoop (E : ℚ → ℚ) (kd : List (ℚ × ℚ)) (ifuel : ℕ) :
    ℕ → ℚ → ℚ → ℚ → ℚ → Option (ℚ × ℚ)
  | 0, a, b, f, g =>
    if f * f + g * g ≤ TOLERANCE then some (a, b) else none
  | fuel + 1, a, b, f, g =>
    if f * f + g * g ≤ TOLERANCE then some (a, b)
    else
      let oldgrad := f * f + g * g
      let d3 := derivSums E kd a b
      let dfda := d3.1
      let dgda := d3.2.1
      let dgdb := d3.2.2
      let dfdb := dgda
      let denom := dfdb * dgda - dfda * dgdb
      let da := (f * dgdb - g * dfdb) / denom
      let db := (g * dfda - f * dgda) / denom
      let fg := fgSum E kd (a + da) (b + db)
      match halveLoop E kd a b oldgrad ifuel da db fg.1 fg.2 with
      | none => none
      | some (da2, db2, f2, g2) => mlLoop E kd ifuel fuel (a + da2) (b + db2) f2 g2

/-- Model of `ml_ab` (lines 21-91): returns `(llik, a, b)` on convergence,
where (a, b) is the converged estimate written back into `ab` and `llik`
the fitted log-likelihood evaluated there. -/
def ml_ab (E : ℚ → ℚ) (k d : List ℚ) (ab : ℚ × ℚ) (ofuel ifuel : ℕ) :
    Option (ℚ × ℚ × ℚ) :=
  let kd := k.zip d
  let fg := fgSum E kd ab.1 ab.2
  match mlLoop E kd ifuel ofuel ab.1 ab.2 fg.1 fg.2 with
  | none => none
  | some (a, b) => some (poissonLLik E kd a b, a, b)

theorem halveLoop_spec (E : ℚ → ℚ) (kd : List (ℚ × ℚ)) (a b oldgrad : ℚ) :
    ∀ ifuel da db f g da2 db2 f2 g2,
    f = (fgSum E kd (a + da) (b + db)).1 →
    g = (fgSum E kd (a + da) (b + db)).2 →
    halveLoop E kd a b oldgrad ifuel da db f g = some (da2, db2, f2, g2) →
    f2 = (fgSum E kd (a + da2) (b + db2)).1 ∧
    g2 = (fgSum E kd (a + da2) (b + db2)).2 ∧
    f2 * f2 + g2 * g2 ≤ oldgrad := by
  intro ifuel
  induction ifuel with
  | zero =>
    intro da db f g da2 db2 f2 g2 hf hg h
    rw [halveLoop] at h
    split at h
    · simp only [Option.some.injEq, Prod.mk.injEq] at h
      obtain ⟨rfl, rfl, rfl, rfl⟩ := h
      exact ⟨hf, hg, by assumption⟩
    · exact absurd h (by simp)
  | succ m ih =>
    intro da db f g da2 db2 f2 g2 hf hg h
    rw [halveLoop] at h
    split at h
    · simp only [Option.some.injEq, Prod.mk.injEq] at h
      obtain ⟨rfl, rfl, rfl, rfl⟩ := h
      exact ⟨hf, hg, by assumption⟩
    · exact ih (da / 2) (db / 2) _ _ da2 db2 f2 g2 rfl rfl h

theorem mlLoop_spec (E : ℚ → ℚ) (kd : List (ℚ × ℚ)) (ifuel : ℕ) :
    ∀ fuel a b f g a2 b2,
    f = (fgSum E kd a b).1 → g = (fgSum E kd a b).2 →
    mlLoop E kd ifuel fuel a b f g = some (a2, b2) →
    (fgSum E kd a2 b2).1 * (fgSum E kd a2 b2).1 +
      (fgSum E kd a2 b2).2 * (fgSum E kd a2 b2).2 ≤ TOLERANCE := by
  intro fuel
  induction fuel with
  | zero =>
    intro a b f g a2 b2 hf hg h
    rw [mlLoop] at h
    split at h
    · simp only [Option.some.injEq, Prod.mk.injEq] at h
      obtain ⟨rfl, rfl⟩ := h
      subst hf
      subst hg
      assumption
    · exact absurd h (by simp)
  | succ m ih =>
    intro a b f g a2 b2 hf hg h
    rw [mlLoop] at h
    split at h
    · simp only [Option.some.injEq, Prod.mk.injEq] at h
      obtain ⟨rfl, rfl⟩ := h
      subst hf
      subst hg
      assumption
    · simp only at h
      split at h
      · exact absurd h (by simp)
      · rename_i da2 db2 f2 g2 heq
        obtain ⟨h1, h2, -⟩ := halveLoop_spec E kd a b _ ifuel _ _ _ _ da2 db2 f2 g2 rfl rfl heq
        exact ih _ _ _ _ a2 b2 h1 h2 h

/-- Claim C3: whenever `ml_ab` terminates, the returned pair (a, b) is the
converged estimate: the squared score norm F(a,b)^2 + G(a,b)^2 is at most
TOLERANCE = 1e-6 (F and G being the components of `fgSum`), and the
returned value is Σ E(a + b*d) + k*(a + b*d) evaluated at that (a, b). -/
theorem claim_C3 (E : ℚ → ℚ) (k d : List ℚ) (ab : ℚ × ℚ) (ofuel ifuel : ℕ)
    (llik a b : ℚ) (h : ml_ab E k d ab ofuel ifuel = some (llik, a, b)) :
    (fgSum E (k.zip d) a b).1 * (fgSum E (k.zip d) a b).1 +
      (fgSum E (k.zip d) a b).2 * (fgSum E (k.zip d) a b).2 ≤ TOLERANCE ∧
    llik = poissonLLik E (k.zip d) a b := by
  unfold ml_ab at h
  simp only at h
  split at h
  · exact absurd h (by simp)
  · rename_i a2 b2 heq
    simp only [Option.some.injEq, Prod.mk.injEq] at h
    obtain ⟨rfl, rfl, rfl⟩ := h
    exact ⟨mlLoop_spec E (k.zip d) ifuel ofuel ab.1 ab.2 _ _ a2 b2 rfl rfl heq, rfl⟩

/-- Witness for C3: a fit that converges immediately on one observation. -/
theorem claim_C3_witness :
    (1 : ℚ) = poissonLLik (fun _ => (1 : ℚ)) ([(1 : ℚ)].zip [(0 : ℚ)]) 0 0 :=
  (claim_C3 (fun _ => (1 : ℚ)) [1] [0] (0, 0) 1 1 1 0 0 (by
    norm_num [ml_ab, mlLoop, fgSum, poissonLLik, TOLERANCE])).2

/-- Claim C6: called on empty sequences (L = 0) `ml_ab` returns
log-likelihood exactly 0 and leaves the parameter pair unchanged; the
zipped sequence is empty so no element is read. -/
theorem claim_C6 (E : ℚ → ℚ) (ab : ℚ × ℚ) (ofuel ifuel : ℕ) :
    ml_ab E [] [] ab ofuel ifuel = some (0, ab.1, ab.2) := by
  have h1 : ∀ fuel, mlLoop E ([] : List (ℚ × ℚ)) ifuel fuel ab.1 ab.2 0 0
      = some (ab.1, ab.2) := by
    intro fuel
    cases fuel with
    | zero =>
      rw [mlLoop]
      norm_num [TOLERANCE]
    | succ m =>
      rw [mlLoop]
      norm_num [TOLERANCE]
  show (match mlLoop E [] ifuel ofuel ab.1 ab.2
      ((fgSum E [] ab.1 ab.2).1) ((fgSum E [] ab.1 ab.2).2) with
    | none => none
    | some (a, b) => some (poissonLLik E [] a b, a, b)) = some (0, ab.1, ab.2)
  have h0 : fgSum E [] ab.1 ab.2 = (0, 0) := rfl
  rw [h0, h1 ofuel]
  rfl

/-! ## CandidateFilter: `remove_non_local_maxima` (src/tadbit.c lines 133-192)

Only the mask-building part (lines 181-189) is modelled; the score profile
`llik` is taken as an abstract input.  (In the C routine the profile
entries at indices 0 and 1 are never initialised, and the scoring code
itself reads them for no index, so the mask construction is a function of
whatever profile the scan produced.)  The caller `tadbit` (lines 336-345)
first sets every index to candidate and runs the filter only in fast
mode. -/

/-- Mask construction of lines 181-189, starting from the caller-supplied
array `bk`: set index n-1 to 1, zero indices 0..n-2, then mark each
i in [3, n-2] whose profile value strictly exceeds both neighbours. -/
def candidateMask (llik : ℕ → ℚ) (n : ℕ) (bk : ℕ → ℕ) : ℕ → ℕ :=
  let b1 := Function.update bk (n - 1) 1
  let b2 := (List.range (n - 1)).foldl (fun B i => Function.update B i 0) b1
  (List.range' 3 (n - 1 - 3)).foldl
    (fun B i =>
      if llik (i - 1) < llik i ∧ llik (i + 1) < llik i then Function.update B i 1 else B) b2

/-- Candidate mask used by `tadbit` (lines 336-345): all ones by default,
replaced by the filter output when fast mode is on. -/
def tadbitCandidates (fast : Bool) (llik : ℕ → ℚ) (n : ℕ) : ℕ → ℕ :=
  if fast then candidateMask llik n (fun _ => 1) else fun _ => 1

theorem foldl_update_zero_not_mem (l : List ℕ) (B : ℕ → ℕ) (p : ℕ) (hp : p ∉ l) :
    (l.foldl (fun B i => Function.update B i 0) B) p = B p := by
  induction l generalizing B with
  | nil => rfl
  | cons a t ih =>
    simp only [List.mem_cons, not_or] at hp
    simp only [List.foldl_cons]
    rw [ih _ hp.2, Function.update_apply, if_neg hp.1]

theorem foldl_update_zero_mem (l : List ℕ) (B : ℕ → ℕ) (p : ℕ) (hp : p ∈ l) :
    (l.foldl (fun B i => Function.update B i 0) B) p = 0 := by
  induction l generalizing B with
  | nil => simp at hp
  | cons a t ih =>
    simp only [List.foldl_cons]
    by_cases h : p ∈ t
    · exact ih _ h
    · have hpa : p = a := by
        simp only [List.mem_cons] at hp
        tauto
      subst hpa
      rw [foldl_update_zero_not_mem _ _ _ h]
      simp

theorem foldl_mark_not_mem (C : ℕ → Prop) [DecidablePred C] (l : List ℕ)
    (B : ℕ → ℕ) (p : ℕ) (hp : p ∉ l) :
    (l.foldl (fun B i => if C i then Function.update B i 1 else B) B) p = B p := by
  induction l generalizing B with
  | nil => rfl
  | cons a t ih =>
    simp only [List.mem_cons, not_or] at hp
    simp only [List.foldl_cons]
    rw [ih _ hp.2]
    by_cases hc : C a
    · rw [if_pos hc, Function.update_apply, if_neg hp.1]
    · rw [if_neg hc]

theorem foldl_mark_mem (C : ℕ → Prop) [DecidablePred C] (l : List ℕ)
    (B : ℕ → ℕ) (p : ℕ) (hp : p ∈ l) :
    (l.foldl (fun B i => if C i then Function.update B i 1 else B) B) p
      = if C p then 1 else B p := by
  induction l generalizing B with
  | nil => simp at hp
  | cons a t ih =>
    simp only [List.foldl_cons]
    by_cases h : p ∈ t
    · rw [ih _ h]
      by_cases hpa : p = a
      · subst hpa
        by_cases hc : C p
        · simp [hc]
        · simp [hc]
      · by_cases hc : C a
        · rw [if_pos hc, Function.update_apply, if_neg hpa]
        · rw [if_neg hc]
    · have hpa : p = a := by
        simp only [List.mem_cons] at hp
        tauto
      subst hpa
      rw [foldl_mark_not_mem _ _ _ _ h]
      by_cases hc : C p
      · simp [hc]
      · simp [hc]

/-- Pointwise value of the candidate mask. -/
theorem candidateMask_eq (llik : ℕ → ℚ) (n : ℕ) (bk : ℕ → ℕ) (p : ℕ) :
    candidateMask llik n bk p =
      if p = n - 1 then Function.update bk (n - 1) 1 p
      else if p < n - 1 then
        if 3 ≤ p ∧ llik (p - 1) < llik p ∧ llik (p + 1) < llik p then 1 else 0
      else bk p := by
  unfold candidateMask
  by_cases h1 : p = n - 1
  · subst h1
    rw [if_pos rfl]
    rw [foldl_mark_not_mem _ _ _ _ (by
      simp only [List.mem_range'_1]
      omega)]
    rw [foldl_update_zero_not_mem _ _ _ (by
      simp only [List.mem_range]
      omega)]
  · rw [if_neg h1]
    by_cases h2 : p < n - 1
    · rw [if_pos h2]
      by_cases h3 : 3 ≤ p
      · have hmem : p ∈ List.range' 3 (n - 1 - 3) := by
          simp only [List.mem_range'_1]
          omega
        rw [foldl_mark_mem _ _ _ _ hmem]
        rw [foldl_update_zero_mem _ _ _ (by
          simp only [List.mem_range]
          omega)]
        by_cases hc : llik (p - 1) < llik p ∧ llik (p + 1) < llik p
        · rw [if_pos hc, if_pos ⟨h3, hc⟩]
        · rw [if_neg hc, if_neg (by tauto)]
      · rw [foldl_mark_not_mem _ _ _ _ (by
          simp only [List.mem_range'_1]
          omega)]
        rw [foldl_update_zero_mem _ _ _ (by
          simp only [List.mem_range]
          omega)]
        rw [if_neg (by tauto)]
    · rw [if_neg h2]
      rw [foldl_mark_not_mem _ _ _ _ (by
        simp only [List.mem_range'_1]
        omega)]
      rw [foldl_update_zero_not_mem _ _ _ (by
        simp only [List.mem_range]
        omega)]
      rw [Function.update_apply, if_neg h1]

/-- Claim C7, amended: in fast mode index n-1 is always a candidate and an
interior index p < n-1 is a candidate if and only if p is at least 3 and
its score strictly exceeds both neighbours; interior indices 1 and 2 are
never candidates (the claim as stated omits the lower bound 3).  With fast
mode off, every index is a candidate. -/
theorem claim_C7 (llik : ℕ → ℚ) (n : ℕ) :
    (∀ p, tadbitCandidates false llik n p = 1) ∧
    tadbitCandidates true llik n (n - 1) = 1 ∧
    (∀ p, p < n - 1 →
      (tadbitCandidates true llik n p = 1 ↔
        3 ≤ p ∧ llik (p - 1) < llik p ∧ llik (p + 1) < llik p)) := by
  refine ⟨fun p => rfl, ?_, ?_⟩
  · show candidateMask llik n (fun _ => 1) (n - 1) = 1
    rw [candidateMask_eq, if_pos rfl, Function.update_same]
  · intro p hp
    show candidateMask llik n (fun _ => 1) p = 1 ↔ _
    rw [candidateMask_eq, if_neg (by omega), if_pos hp]
    by_cases hc : 3 ≤ p ∧ llik (p - 1) < llik p ∧ llik (p + 1) < llik p
    · rw [if_pos hc]
      simp [hc]
    · rw [if_neg hc]
      simp [hc]

/-- Witness for C7 at n = 6 with a profile peaking at index 4. -/
theorem claim_C7_witness :
    tadbitCandidates true (fun i => if i = 4 then 5 else 0) 6 4 = 1 ↔
      3 ≤ 4 ∧ ((fun i : ℕ => if i = 4 then (5 : ℚ) else 0) 3 < (fun i : ℕ => if i = 4 then (5 : ℚ) else 0) 4 ∧
        (fun i : ℕ => if i = 4 then (5 : ℚ) else 0) 5 < (fun i : ℕ => if i = 4 then (5 : ℚ) else 0) 4) :=
  (claim_C7 (fun i => if i = 4 then (5 : ℚ) else 0) 6).2.2 4 (by omega)

/-- Counterexample to C7 as stated: with n = 6 and a score profile whose
value at the interior index 2 strictly exceeds both neighbours, the filter
still does not mark index 2 (the scan starts at index 3), so "candidate iff
strict local maximum" fails for interior indices below 3. -/
theorem claim_C7_counterexample :
    tadbitCandidates true (fun i => if i = 2 then 5 else 0) 6 2 = 0 ∧
    (0 : ℕ) < 2 ∧ (2 : ℕ) < 6 - 1 ∧
    (fun i : ℕ => if i = 2 then (5 : ℚ) else 0) 1 < (fun i : ℕ => if i = 2 then (5 : ℚ) else 0) 2 ∧
    (fun i : ℕ => if i = 2 then (5 : ℚ) else 0) 3 < (fun i : ℕ => if i = 2 then (5 : ℚ) else 0) 2 := by
  refine ⟨?_, by omega, by omega, by norm_num, by norm_num⟩
  show candidateMask (fun i => if i = 2 then (5 : ℚ) else 0) 6 (fun _ => 1) 2 = 0
  rw [candidateMask_eq, if_neg (by omega), if_pos (by omega),
    if_neg (by
      rintro ⟨h3, -⟩
      omega)]

/-! ## LikelihoodMatrixBuilder: `tadbit` (src/tadbit.c lines 284-383)

The n*n matrix `llik` is initialised to the NaN sentinel and filled at flat
index i + j*n for every visited pair (i, j).  The per-block fitting call is
kept abstract as `fit : counts → distances → (a, b) → (llik, (a, b))`; the
three warm-started parameter slots of line 326 are threaded through the
loop exactly as the in-place `ab` arrays are in C. -/

/-- Distance matrix (lines 303-312): flat entry idx = row*n + col holds
the diagonal shift |row - col|. -/
def dis (n idx : ℕ) : ℚ := ((((idx / n : ℕ) : ℤ) - ((idx % n : ℕ) : ℤ)).natAbs : ℚ)

/-- Pairs (i, j) visited by the builder loops (lines 358-368) in loop
order: i ascends over [0, n-3]; i is admitted when i = 0 or bkpts[i-1] = 1;
j ascends over [i+2, n-1] keeping indices with bkpts[j] = 1. -/
def pairsList (n : ℕ) (bkpts : ℕ → ℕ) : List (ℕ × ℕ) :=
  (List.range (n - 2)).flatMap fun i =>
    if i = 0 ∨ bkpts (i - 1) = 1 then
      ((List.range' (i + 2) (n - (i + 2))).filter fun j => bkpts j = 1).map fun j => (i, j)
    else []

/-- One replicate contribution (lines 374-381): segment the replicate and
the distance matrix at (i, j), fit the three blocks threading the three
parameter slots, and accumulate fit(top)/2 + fit(tri) + fit(bot)/2. -/
def replicateStep (fit : List ℚ → List ℚ → ℚ × ℚ → ℚ × (ℚ × ℚ))
    (obs : ℕ → ℕ → ℚ) (n i j : ℕ)
    (acc : ℚ × ((ℚ × ℚ) × (ℚ × ℚ) × (ℚ × ℚ))) (k : ℕ) :
    ℚ × ((ℚ × ℚ) × (ℚ × ℚ) × (ℚ × ℚ)) :=
  let r0 := fit (break_top (obs k) n i j) (break_top (dis n) n i j) acc.2.1
  let r1 := fit (break_tri (obs k) n i j) (break_tri (dis n) n i j) acc.2.2.1
  let r2 := fit (break_bot (obs k) n i j) (break_bot (dis n) n i j) acc.2.2.2
  (acc.1 + (r0.1 / 2 + r1.1 + r2.1 / 2), (r0.2, r1.2, r2.2))

/-- Total accumulated into llik[i + j*n] for a computed pair: the k-loop of
lines 373-381 over all m replicates, from parameter state `st`. -/
def pairValue (fit : List ℚ → List ℚ → ℚ × ℚ → ℚ × (ℚ × ℚ))
    (obs : ℕ → ℕ → ℚ) (n m i j : ℕ)
    (st : (ℚ × ℚ) × (ℚ × ℚ) × (ℚ × ℚ)) :
    ℚ × ((ℚ × ℚ) × (ℚ × ℚ) × (ℚ × ℚ)) :=
  (List.range m).foldl (replicateStep fit obs n i j) (0, st)

/-- Processing of one visited pair: write the accumulated total at flat
index i + j*n and carry the updated parameter state. -/
def pairStep (fit : List ℚ → List ℚ → ℚ × ℚ → ℚ × (ℚ × ℚ))
    (obs : ℕ → ℕ → ℚ) (n m : ℕ)
    (acc : (ℕ → RVal) × ((ℚ × ℚ) × (ℚ × ℚ) × (ℚ × ℚ))) (p : ℕ × ℕ) :
    (ℕ → RVal) × ((ℚ × ℚ) × (ℚ × ℚ) × (ℚ × ℚ)) :=
  let r := pairValue fit obs n m p.1 p.2 acc.2
  (Function.update acc.1 (p.1 + p.2 * n) (RVal.fin r.1), r.2)

/-- Likelihood-matrix construction: NaN-initialised matrix (lines 304-312)
filled over the visited pairs, parameter slots starting at (0,0)
(line 326). -/
def buildLLik (fit : List ℚ → List ℚ → ℚ × ℚ → ℚ × (ℚ × ℚ))
    (obs : ℕ → ℕ → ℚ) (n m : ℕ) (bkpts : ℕ → ℕ) :
    (ℕ → RVal) × ((ℚ × ℚ) × (ℚ × ℚ) × (ℚ × ℚ)) :=
  (pairsList n bkpts).foldl (pairStep fit obs n m)
    (fun _ => RVal.nan, ((0, 0), (0, 0), (0, 0)))

theorem mem_pairsList {n : ℕ} {bkpts : ℕ → ℕ} {i j : ℕ} :
    (i, j) ∈ pairsList n bkpts ↔
      i ≤ n - 3 ∧ i + 2 ≤ j ∧ j ≤ n - 1 ∧ (i = 0 ∨ bkpts (i - 1) = 1) ∧ bkpts j = 1 := by
  constructor
  · intro h
    simp only [pairsList, List.mem_flatMap, List.mem_range] at h
    obtain ⟨a, ha, hmem⟩ := h
    by_cases hc : a = 0 ∨ bkpts (a - 1) = 1
    · rw [if_pos hc] at hmem
      simp only [List.mem_map, List.mem_filter, List.mem_range'_1,
        decide_eq_true_eq, Prod.mk.injEq] at hmem
      obtain ⟨b, ⟨⟨hb1, hb2⟩, hbk⟩, rfl, rfl⟩ := hmem
      exact ⟨by omega, by omega, by omega, hc, hbk⟩
    · rw [if_neg hc] at hmem
      simp at hmem
  · rintro ⟨h1, h2, h3, h4, h5⟩
    simp only [pairsList, List.mem_flatMap, List.mem_range]
    refine ⟨i, by omega, ?_⟩
    rw [if_pos h4]
    simp only [List.mem_map, List.mem_filter, List.mem_range'_1,
      decide_eq_true_eq, Prod.mk.injEq]
    exact ⟨j, ⟨⟨by omega, by omega⟩, h5⟩, trivial, rfl⟩

theorem pairsList_nodup (n : ℕ) (bkpts : ℕ → ℕ) : (pairsList n bkpts).Nodup := by
  rw [pairsList, List.nodup_flatMap]
  constructor
  · intro a _
    split
    · exact (((List.nodup_range' ..).filter _).map fun x y h => (Prod.mk.injEq .. ▸ h).2)
    · exact List.nodup_nil
  · have key : ∀ a₁ a₂ : ℕ, a₁ ≠ a₂ → ∀ p : ℕ × ℕ,
        p ∈ (if a₁ = 0 ∨ bkpts (a₁ - 1) = 1 then
          ((List.range' (a₁ + 2) (n - (a₁ + 2))).filter fun j => bkpts j = 1).map fun j => (a₁, j)
          else []) →
        p ∈ (if a₂ = 0 ∨ bkpts (a₂ - 1) = 1 then
          ((List.range' (a₂ + 2) (n - (a₂ + 2))).filter fun j => bkpts j = 1).map fun j => (a₂, j)
          else []) → False := by
      intro a₁ a₂ hne p hp1 hp2
      have e1 : p.1 = a₁ := by
        split at hp1
        · simp only [List.mem_map] at hp1
          obtain ⟨b, -, rfl⟩ := hp1
          rfl
        · simp at hp1
      have e2 : p.1 = a₂ := by
        split at hp2
        · simp only [List.mem_map] at hp2
          obtain ⟨b, -, rfl⟩ := hp2
          rfl
        · simp at hp2
      exact hne (e1 ▸ e2)
    exact List.Pairwise.imp_of_mem
      (fun {a b} _ _ hne p hp1 hp2 => key a b hne p hp1 hp2) (List.nodup_range _)

theorem foldl_pairStep_preserve (fit : List ℚ → List ℚ → ℚ × ℚ → ℚ × (ℚ × ℚ))
    (obs : ℕ → ℕ → ℚ) (n m : ℕ) (l : List (ℕ × ℕ))
    (acc : (ℕ → RVal) × ((ℚ × ℚ) × (ℚ × ℚ) × (ℚ × ℚ))) (idx : ℕ)
    (h : ∀ p ∈ l, p.1 + p.2 * n ≠ idx) :
    (l.foldl (pairStep fit obs n m) acc).1 idx = acc.1 idx := by
  induction l generalizing acc with
  | nil => rfl
  | cons a t ih =>
    simp only [List.foldl_cons]
    rw [ih _ (fun p hp => h p (List.mem_cons_of_mem a hp))]
    simp only [pairStep, Function.update_apply]
    rw [if_neg (fun he => h a (List.mem_cons_self _ _) he.symm)]

theorem foldl_pairStep_nan_or_fin (fit : List ℚ → List ℚ → ℚ × ℚ → ℚ × (ℚ × ℚ))
    (obs : ℕ → ℕ → ℚ) (n m : ℕ) (l : List (ℕ × ℕ))
    (acc : (ℕ → RVal) × ((ℚ × ℚ) × (ℚ × ℚ) × (ℚ × ℚ))) (idx : ℕ)
    (h : acc.1 idx = RVal.nan ∨ ∃ q, acc.1 idx = RVal.fin q) :
    (l.foldl (pairStep fit obs n m) acc).1 idx = RVal.nan ∨
      ∃ q, (l.foldl (pairStep fit obs n m) acc).1 idx = RVal.fin q := by
  induction l generalizing acc with
  | nil => exact h
  | cons a t ih =>
    simp only [List.foldl_cons]
    refine ih _ ?_
    simp only [pairStep, Function.update_apply]
    by_cases he : idx = a.1 + a.2 * n
    · rw [if_pos he]
      exact Or.inr ⟨_, rfl⟩
    · rw [if_neg he]
      exact h

/-- Claim C4: the builder computes an entry exactly for the pairs (i, j)
with 0 ≤ i ≤ n-3, i+2 ≤ j ≤ n-1 whose delimiting indices i-1 and j are
candidates (index -1 always counting as one), and the entry written at
flat index i + j*n is the sum over all m replicates of
fit(top)/2 + fit(triangular) + fit(bottom)/2 on the blocks of that pair,
the parameter slots being warm-started from all previously processed
pairs. -/
theorem claim_C4 (fit : List ℚ → List ℚ → ℚ × ℚ → ℚ × (ℚ × ℚ))
    (obs : ℕ → ℕ → ℚ) (n m : ℕ) (bkpts : ℕ → ℕ) :
    (∀ i j, (i, j) ∈ pairsList n bkpts ↔
      i ≤ n - 3 ∧ i + 2 ≤ j ∧ j ≤ n - 1 ∧ (i = 0 ∨ bkpts (i - 1) = 1) ∧ bkpts j = 1) ∧
    (∀ (l1 l2 : List (ℕ × ℕ)) (i j : ℕ),
      pairsList n bkpts = l1 ++ (i, j) :: l2 →
      (buildLLik fit obs n m bkpts).1 (i + j * n) =
        RVal.fin ((pairValue fit obs n m i j
          ((l1.foldl (pairStep fit obs n m)
            (fun _ => RVal.nan, ((0, 0), (0, 0), (0, 0)))).2)).1)) := by
  constructor
  · intro i j
    exact mem_pairsList
  · intro l1 l2 i j hsplit
    have hmemij : (i, j) ∈ pairsList n bkpts := by
      rw [hsplit]
      exact List.mem_append_right _ (List.mem_cons_self _ _)
    have hij := mem_pairsList.mp hmemij
    have hnodup := pairsList_nodup n bkpts
    rw [hsplit] at hnodup
    have hnotl2 : (i, j) ∉ l2 :=
      (List.nodup_cons.mp hnodup.of_append_right).1
    rw [buildLLik, hsplit, List.foldl_append, List.foldl_cons]
    have hpres : ∀ p ∈ l2, p.1 + p.2 * n ≠ i + j * n := by
      intro p hp he
      have hpmem : p ∈ pairsList n bkpts := by
        rw [hsplit]
        exact List.mem_append_right _ (List.mem_cons_of_mem _ hp)
      obtain ⟨p1, p2⟩ := p
      have hp12 := mem_pairsList.mp hpmem
      have h1 : p1 < n := by omega
      have h2 : i < n := by omega
      obtain ⟨e1, e2⟩ := flat_index_inj h1 h2 he
      subst e1
      subst e2
      exact hnotl2 hp
    rw [foldl_pairStep_preserve _ _ _ _ _ _ _ hpres]
    simp only [pairStep, Function.update_same]

/-- Witness for C4 at n = 5, m = 1, all indices candidates, trivial fit. -/
theorem claim_C4_witness :
    (buildLLik (fun _ _ ab => ((0 : ℚ), ab)) (fun _ _ => (0 : ℚ)) 5 1 (fun _ => 1)).1
        (0 + 2 * 5) =
      RVal.fin ((pairValue (fun _ _ ab => ((0 : ℚ), ab)) (fun _ _ => (0 : ℚ)) 5 1 0 2
        ((([] : List (ℕ × ℕ)).foldl (pairStep (fun _ _ ab => ((0 : ℚ), ab)) (fun _ _ => (0 : ℚ)) 5 1)
          (fun _ => RVal.nan, ((0, 0), (0, 0), (0, 0)))).2)).1) :=
  (claim_C4 (fun _ _ ab => ((0 : ℚ), ab)) (fun _ _ => (0 : ℚ)) 5 1 (fun _ => 1)).2
    [] [(0, 3), (0, 4), (1, 3), (1, 4), (2, 4)] 0 2 (by decide)

/-- Claim C8: after construction, every matrix entry is either the NaN
sentinel it was initialised with or a fully written finite value; entries
whose flat index is hit by no computed pair keep the sentinel, in
particular every structurally invalid position (j < i+2, which covers the
lower triangle and the two diagonals above it). -/
theorem claim_C8 (fit : List ℚ → List ℚ → ℚ × ℚ → ℚ × (ℚ × ℚ))
    (obs : ℕ → ℕ → ℚ) (n m : ℕ) (bkpts : ℕ → ℕ) :
    (∀ idx, (buildLLik fit obs n m bkpts).1 idx = RVal.nan ∨
      ∃ q, (buildLLik fit obs n m bkpts).1 idx = RVal.fin q) ∧
    (∀ idx, (∀ p ∈ pairsList n bkpts, p.1 + p.2 * n ≠ idx) →
      (buildLLik fit obs n m bkpts).1 idx = RVal.nan) ∧
    (∀ i j, i < n → j < n → j < i + 2 →
      (buildLLik fit obs n m bkpts).1 (i + j * n) = RVal.nan) := by
  refine ⟨?_, ?_, ?_⟩
  · intro idx
    exact foldl_pairStep_nan_or_fin _ _ _ _ _ _ _ (Or.inl rfl)
  · intro idx h
    exact foldl_pairStep_preserve _ _ _ _ _ _ _ h
  · intro i j hi hj hlt
    refine foldl_pairStep_preserve _ _ _ _ _ _ _ ?_
    intro p hp he
    obtain ⟨p1, p2⟩ := p
    have hp12 := mem_pairsList.mp hp
    have h1 : p1 < n := by omega
    obtain ⟨e1, e2⟩ := flat_index_inj h1 hi he
    omega

/-- Witness for C8: the diagonal entry (1, 1) stays NaN at n = 5. -/
theorem claim_C8_witness :
    (buildLLik (fun _ _ ab => ((0 : ℚ), ab)) (fun _ _ => (0 : ℚ)) 5 1 (fun _ => 1)).1
      (1 + 1 * 5) = RVal.nan :=
  (claim_C8 (fun _ _ ab => ((0 : ℚ), ab)) (fun _ _ => (0 : ℚ)) 5 1 (fun _ => 1)).2.2
    1 1 (by omega) (by omega) (by omega)

/-! ## OptimalSegmenter: `get_breakpoints` (src/tadbit.c lines 194-281)

The dynamic program is modelled as a fuelled loop over a state record.
Flat n*n int arrays become total functions `ℕ → ℕ`; the round-start copy
`old_bkpt_list = new_bkpt_list` (lines 231-235) is modelled as a whole
function copy (the C loop copies exactly the n*n cells ever accessed).
The stack array `new_llik` is uninitialised in C; it is modelled as
all-NaN.  (Its entries are only read before being written when n <= 5,
in which round the j-loop is empty, every comparison against the
unspecified value fails, and the returned vector is all zero either
way.) -/

/-- Candidate start positions of round k for end j (line 242):
i = 3k, ..., j-2. -/
def iList (k j : ℕ) : List ℕ := List.range' (3 * k) (j - 1 - 3 * k)

/-- End positions scanned in round k (line 238): j = 3k+2, ..., n-1. -/
def jList (k n : ℕ) : List ℕ := List.range' (3 * k + 2) (n - (3 * k + 2))

/-- Inner scan of lines 242-250: keep the largest
`old_llik[i-1] + llik[i + j*n]` under the IEEE comparison (so a NaN
candidate never replaces the running best) together with the breakpoint
position i-1 achieving it. -/
def innerScan (llik oldL : ℕ → RVal) (n j : ℕ) : List ℕ → RVal × ℕ → RVal × ℕ
  | [], acc => acc
  | i :: rest, acc =>
    let tmp := RVal.add (oldL (i - 1)) (llik (i + j * n))
    if RVal.lt acc.1 tmp then innerScan llik oldL n j rest (tmp, i - 1)
    else innerScan llik oldL n j rest acc

/-- Best round-k score for end position j, started from -INFINITY
(line 239). -/
def bestScore (llik oldL : ℕ → RVal) (n k j : ℕ) : RVal :=
  (innerScan llik oldL n j (iList k j) (RVal.neginf, 0)).1

/-- State of the dynamic program between rounds. -/
structure GBState where
  nbreaks : ℕ
  oldL : ℕ → RVal
  newL : ℕ → RVal
  oldB : ℕ → ℕ
  newB : ℕ → ℕ
  nbp : ℕ
  oldFull : RVal
  newFull : RVal

/-- Per-end-position step (lines 238-260): scan the candidate starts,
store the winning score in new_llik[j] and, when it beats -INFINITY, copy
the breakpoint row of the winning predecessor into column j of the new
list and mark the new breakpoint. -/
def jStep (llik oldL : ℕ → RVal) (oldB : ℕ → ℕ) (n k : ℕ)
    (st : (ℕ → RVal) × (ℕ → ℕ) × ℕ) (j : ℕ) : (ℕ → RVal) × (ℕ → ℕ) × ℕ :=
  let r := innerScan llik oldL n j (iList k j) (RVal.neginf, st.2.2)
  let newL2 := Function.update st.1 j r.1
  if RVal.lt RVal.neginf r.1 then
    let B1 := (List.range n).foldl
      (fun B i => Function.update B (j + i * n) (oldB (r.2 + i * n))) st.2.1
    (newL2, Function.update B1 (j + r.2 * n) 1, r.2)
  else
    (newL2, st.2.1, r.2)

/-- One round of the while loop (lines 227-269): bump nbreaks, copy the
breakpoint list, run the j-loop, then roll the full log-likelihoods and
old_llik forward. -/
def roundBody (llik : ℕ → RVal) (n : ℕ) (s : GBState) : GBState :=
  let k := s.nbreaks + 1
  let obk := s.newB
  let t := (jList k n).foldl (jStep llik s.oldL obk n k) (s.newL, s.newB, s.nbp)
  { nbreaks := k, oldL := t.1, newL := t.1, oldB := obk, newB := t.2.1,
    nbp := t.2.2, oldFull := s.newFull, newFull := t.1 (n - 1) }

/-- The while loop of line 227 with fuel. -/
def gbLoop (llik : ℕ → RVal) (n : ℕ) : ℕ → GBState → Option GBState
  | 0, s => if RVal.lt s.oldFull s.newFull then none else some s
  | fuel + 1, s =>
    if RVal.lt s.oldFull s.newFull then gbLoop llik n fuel (roundBody llik n s)
    else some s

/-- Initial state (lines 199-225): old_llik holds row 0 of llik, both
breakpoint lists are zeroed, new_full starts at old_llik[n-1] and
old_full at -INFINITY. -/
def gbInit (llik : ℕ → RVal) (n : ℕ) : GBState :=
  { nbreaks := 0, oldL := fun j => llik (j * n), newL := fun _ => RVal.nan,
    oldB := fun _ => 0, newB := fun _ => 0, nbp := 0,
    oldFull := RVal.neginf, newFull := llik ((n - 1) * n) }

/-- Model of `get_breakpoints` (lines 194-281): run the loop with fuel
n+1 (proved sufficient) and read row n-1 of the retained breakpoint
list (lines 272-274). -/
def get_breakpoints (llik : ℕ → RVal) (n : ℕ) : Option (List ℕ) :=
  (gbLoop llik n (n + 1) (gbInit llik n)).map fun s =>
    (List.range n).map fun p => s.oldB (n - 1 + p * n)

theorem RVal.fin_of_lt {x y : RVal} (h : RVal.lt x y = true) : ∃ q, y = RVal.fin q := by
  cases y with
  | nan => rw [RVal.lt_nan_right] at h; exact absurd h (by simp)
  | neginf => cases x <;> simp [RVal.lt] at h
  | fin q => exact ⟨q, rfl⟩

theorem innerScan_fst_congr (llik oldL : ℕ → RVal) (n j : ℕ) (l : List ℕ) :
    ∀ (cur : RVal) (nb nb2 : ℕ),
    (innerScan llik oldL n j l (cur, nb)).1 = (innerScan llik oldL n j l (cur, nb2)).1 := by
  induction l with
  | nil => intro cur nb nb2; rfl
  | cons i rest ih =>
    intro cur nb nb2
    simp only [innerScan]
    split
    · exact ih _ _ _
    · exact ih _ _ _

theorem innerScan_ge (llik oldL : ℕ → RVal) (n j : ℕ) (l : List ℕ) :
    ∀ (cur : RVal) (nb : ℕ) (t : RVal), RVal.lt cur t = false →
    RVal.lt (innerScan llik oldL n j l (cur, nb)).1 t = false := by
  induction l with
  | nil => intro cur nb t h; exact h
  | cons i rest ih =>
    intro cur nb t h
    simp only [innerScan]
    split
    · rename_i hlt
      refine ih _ _ _ ?_
      by_cases htmp : RVal.lt (RVal.add (oldL (i - 1)) (llik (i + j * n))) t = true
      · have := RVal.lt_trans hlt htmp
        rw [this] at h
        exact absurd h (by simp)
      · simpa using htmp
    · exact ih _ _ _ h

theorem innerScan_ub (llik oldL : ℕ → RVal) (n j : ℕ) (l : List ℕ) :
    ∀ (cur : RVal) (nb : ℕ) (i : ℕ), i ∈ l →
    RVal.lt (innerScan llik oldL n j l (cur, nb)).1
      (RVal.add (oldL (i - 1)) (llik (i + j * n))) = false := by
  induction l with
  | nil => intro cur nb i h; simp at h
  | cons a rest ih =>
    intro cur nb i hi
    simp only [innerScan]
    rcases List.mem_cons.mp hi with rfl | hmem
    · split
      · exact innerScan_ge llik oldL n j rest _ _ _ (RVal.lt_irrefl _)
      · rename_i hlt
        exact innerScan_ge llik oldL n j rest _ _ _ (by simpa using hlt)
    · split
      · exact ih _ _ _ hmem
      · exact ih _ _ _ hmem

theorem innerScan_shape (llik oldL : ℕ → RVal) (n j : ℕ) (l : List ℕ) :
    ∀ (cur : RVal) (nb : ℕ),
    innerScan llik oldL n j l (cur, nb) = (cur, nb) ∨
    ∃ i ∈ l, innerScan llik oldL n j l (cur, nb)
        = (RVal.add (oldL (i - 1)) (llik (i + j * n)), i - 1) ∧
      ∃ q : ℚ, RVal.add (oldL (i - 1)) (llik (i + j * n)) = RVal.fin q := by
  induction l with
  | nil => intro cur nb; exact Or.inl rfl
  | cons a rest ih =>
    intro cur nb
    simp only [innerScan]
    split
    · rename_i hlt
      obtain ⟨q, hq⟩ := RVal.fin_of_lt hlt
      rcases ih (RVal.add (oldL (a - 1)) (llik (a + j * n))) (a - 1) with h | ⟨i, hi, he, hf⟩
      · exact Or.inr ⟨a, List.mem_cons_self _ _, h, q, hq⟩
      · exact Or.inr ⟨i, List.mem_cons_of_mem _ hi, he, hf⟩
    · rcases ih cur nb with h | ⟨i, hi, he, hf⟩
      · exact Or.inl h
      · exact Or.inr ⟨i, List.mem_cons_of_mem _ hi, he, hf⟩

theorem mem_iList {k j i : ℕ} (hj : 3 * k + 2 ≤ j) :
    i ∈ iList k j ↔ 3 * k ≤ i ∧ i + 2 ≤ j := by
  simp only [iList, List.mem_range'_1]
  omega

theorem mem_jList {k n j : ℕ} : j ∈ jList k n ↔ 3 * k + 2 ≤ j ∧ j < n := by
  simp only [jList, List.mem_range'_1]
  omega

theorem jList_nodup (k n : ℕ) : (jList k n).Nodup := List.nodup_range' ..

theorem jFold_newL_not_mem (llik oldL : ℕ → RVal) (oldB : ℕ → ℕ) (n k : ℕ)
    (js : List ℕ) :
    ∀ (st : (ℕ → RVal) × (ℕ → ℕ) × ℕ) (j' : ℕ), j' ∉ js →
    (js.foldl (jStep llik oldL oldB n k) st).1 j' = st.1 j' := by
  induction js with
  | nil => intro st j' h; rfl
  | cons a rest ih =>
    intro st j' h
    simp only [List.mem_cons, not_or] at h
    simp only [List.foldl_cons]
    rw [ih _ _ h.2]
    have : (jStep llik oldL oldB n k st a).1 = Function.update st.1 a
        (innerScan llik oldL n a (iList k a) (RVal.neginf, st.2.2)).1 := by
      rw [jStep]
      split
      · rfl
      · rfl
    rw [this, Function.update_apply, if_neg h.1]

theorem jFold_newL_mem (llik oldL : ℕ → RVal) (oldB : ℕ → ℕ) (n k : ℕ)
    (js : List ℕ) :
    ∀ (st : (ℕ → RVal) × (ℕ → ℕ) × ℕ) (j' : ℕ), js.Nodup → j' ∈ js →
    (js.foldl (jStep llik oldL oldB n k) st).1 j' = bestScore llik oldL n k j' := by
  induction js with
  | nil => intro st j' _ h; simp at h
  | cons a rest ih =>
    intro st j' hnd hj'
    obtain ⟨hna, hndr⟩ := List.nodup_cons.mp hnd
    simp only [List.foldl_cons]
    rcases List.mem_cons.mp hj' with rfl | hmem
    · rw [jFold_newL_not_mem _ _ _ _ _ _ _ _ hna]
      have : (jStep llik oldL oldB n k st j').1 = Function.update st.1 j'
          (innerScan llik oldL n j' (iList k j') (RVal.neginf, st.2.2)).1 := by
        rw [jStep]
        split
        · rfl
        · rfl
      rw [this, Function.update_same, bestScore]
      exact innerScan_fst_congr _ _ _ _ _ _ _ _
    · exact ih _ _ hndr hmem

/-- Claim C2: in round k the dynamic program computes scores exactly for
end positions 3k+2 ≤ j ≤ n-1; each such score is the IEEE maximum over
prior starts i with 3k ≤ i ≤ j-2 of old_llik[i-1] + llik[i + j*n] (no
candidate exceeds it, and it is either attained by some candidate or
stays -INFINITY); the round's total is the new score at n-1; and the loop
runs another round exactly when the previous total is strictly below the
new one. -/
theorem claim_C2 (llik : ℕ → RVal) (n : ℕ) (s : GBState) :
    ((roundBody llik n s).nbreaks = s.nbreaks + 1) ∧
    (∀ j, j < 3 * (s.nbreaks + 1) + 2 ∨ n ≤ j →
      (roundBody llik n s).newL j = s.newL j) ∧
    (∀ j, 3 * (s.nbreaks + 1) + 2 ≤ j → j < n →
      (roundBody llik n s).newL j = bestScore llik s.oldL n (s.nbreaks + 1) j ∧
      (∀ i, 3 * (s.nbreaks + 1) ≤ i → i + 2 ≤ j →
        RVal.lt ((roundBody llik n s).newL j)
          (RVal.add (s.oldL (i - 1)) (llik (i + j * n))) = false) ∧
      ((roundBody llik n s).newL j = RVal.neginf ∨
        ∃ i, 3 * (s.nbreaks + 1) ≤ i ∧ i + 2 ≤ j ∧
          (roundBody llik n s).newL j
            = RVal.add (s.oldL (i - 1)) (llik (i + j * n)))) ∧
    ((roundBody llik n s).oldFull = s.newFull ∧
      (roundBody llik n s).newFull = (roundBody llik n s).newL (n - 1)) ∧
    (∀ fuel, (RVal.lt s.oldFull s.newFull = false → gbLoop llik n fuel s = some s) ∧
      (RVal.lt s.oldFull s.newFull = true →
        gbLoop llik n (fuel + 1) s = gbLoop llik n fuel (roundBody llik n s))) := by
  have hnewL : ∀ j, (roundBody llik n s).newL j
      = ((jList (s.nbreaks + 1) n).foldl
          (jStep llik s.oldL s.newB n (s.nbreaks + 1)) (s.newL, s.newB, s.nbp)).1 j :=
    fun j => rfl
  refine ⟨rfl, ?_, ?_, ⟨rfl, rfl⟩, ?_⟩
  · intro j hj
    rw [hnewL]
    exact jFold_newL_not_mem _ _ _ _ _ _ _ _ (by
      rw [mem_jList]
      omega)
  · intro j hj1 hj2
    have hb : (roundBody llik n s).newL j = bestScore llik s.oldL n (s.nbreaks + 1) j := by
      rw [hnewL]
      exact jFold_newL_mem _ _ _ _ _ _ _ _ (jList_nodup ..) (mem_jList.mpr ⟨hj1, hj2⟩)
    refine ⟨hb, ?_, ?_⟩
    · intro i hi1 hi2
      rw [hb, bestScore]
      exact innerScan_ub _ _ _ _ _ _ _ _ ((mem_iList hj1).mpr ⟨hi1, hi2⟩)
    · rw [hb, bestScore]
      rcases innerScan_shape llik s.oldL n j (iList (s.nbreaks + 1) j) RVal.neginf 0 with
        h | ⟨i, hi, he, -⟩
      · rw [h]
        exact Or.inl rfl
      · right
        obtain ⟨hi1, hi2⟩ := (mem_iList hj1).mp hi
        exact ⟨i, hi1, hi2, by rw [he]⟩
  · intro fuel
    constructor
    · intro h
      cases fuel with
      | zero => simp [gbLoop, h]
      | succ m => simp [gbLoop, h]
    · intro h
      simp [gbLoop, h]

/-- Witness for C2 at n = 8 in round 1: the score at the first scanned
end position j = 5 is the best over starts i in [3, 3]. -/
theorem claim_C2_witness :
    (roundBody (fun _ => RVal.fin 0) 8 (gbInit (fun _ => RVal.fin 0) 8)).newL 5
      = bestScore (fun _ => RVal.fin 0) (gbInit (fun _ => RVal.fin 0) 8).oldL 8 1 5 :=
  ((claim_C2 (fun _ => RVal.fin 0) 8 (gbInit (fun _ => RVal.fin 0) 8)).2.2.1 5
    (by norm_num [gbInit]) (by norm_num [gbInit])).1

/-- Claim C10: a NaN candidate sum never passes the comparison guarding
the update of new_llik[j]; the retained score for any end position is
either -INFINITY or the sum of two non-sentinel (finite) entries; and the
breakpoint lists are touched only when the retained score strictly beats
-INFINITY. -/
theorem claim_C10 (llik oldL : ℕ → RVal) (oldB : ℕ → ℕ) (n k j : ℕ)
    (st : (ℕ → RVal) × (ℕ → ℕ) × ℕ) :
    (∀ (cur : RVal) (i : ℕ),
      oldL (i - 1) = RVal.nan ∨ llik (i + j * n) = RVal.nan →
      RVal.lt cur (RVal.add (oldL (i - 1)) (llik (i + j * n))) = false) ∧
    ((jStep llik oldL oldB n k st j).1 j = RVal.neginf ∨
      ∃ i q1 q2, i ∈ iList k j ∧ oldL (i - 1) = RVal.fin q1 ∧
        llik (i + j * n) = RVal.fin q2 ∧
        (jStep llik oldL oldB n k st j).1 j = RVal.fin (q1 + q2)) ∧
    (RVal.lt RVal.neginf ((jStep llik oldL oldB n k st j).1 j) = false →
      (jStep llik oldL oldB n k st j).2.1 = st.2.1) := by
  have hval : (jStep llik oldL oldB n k st j).1 j
      = (innerScan llik oldL n j (iList k j) (RVal.neginf, st.2.2)).1 := by
    rw [jStep]
    split
    · simp
    · simp
  refine ⟨?_, ?_, ?_⟩
  · intro cur i h
    rw [RVal.add_nan_of_nan h, RVal.lt_nan_right]
  · rw [hval]
    rcases innerScan_shape llik oldL n j (iList k j) RVal.neginf st.2.2 with
      h | ⟨i, hi, he, q, hq⟩
    · rw [h]
      exact Or.inl rfl
    · right
      obtain ⟨q1, q2, e1, e2, e3⟩ := RVal.add_eq_fin hq
      refine ⟨i, q1, q2, hi, e1, e2, ?_⟩
      rw [he]
      simp only
      rw [hq, e3]
  · intro h
    rw [hval] at h
    rw [jStep]
    split
    · rename_i hguard
      rw [h] at hguard
      exact absurd hguard (by simp)
    · rfl

/-- Witness for C10: a concrete j-step over an all-NaN matrix leaves the
breakpoint list untouched. -/
theorem claim_C10_witness :
    (jStep (fun _ : ℕ => RVal.nan) (fun _ : ℕ => RVal.nan) (fun _ : ℕ => (0 : ℕ)) 6 1
      (fun _ : ℕ => RVal.nan, fun _ : ℕ => (0 : ℕ), 0) 5).2.1
      = (fun _ : ℕ => RVal.nan, fun _ : ℕ => (0 : ℕ), 0).2.1 :=
  (claim_C10 (fun _ : ℕ => RVal.nan) (fun _ : ℕ => RVal.nan) (fun _ : ℕ => (0 : ℕ)) 6 1 5
    (fun _ : ℕ => RVal.nan, fun _ : ℕ => (0 : ℕ), 0)).2.2 (by decide)

/-- Invariant of a breakpoint-list array: every cell is 0 or 1, and row
n-1 (the cell for position n-1 of any end column) is all zero. -/
def BkOk (n : ℕ) (B : ℕ → ℕ) : Prop :=
  (∀ idx, B idx = 0 ∨ B idx = 1) ∧ ∀ q, q < n → B (q + (n - 1) * n) = 0

theorem foldl_update_pred (P : ℕ → Prop) (l : List ℕ) (tgt src : ℕ → ℕ)
    (B : ℕ → ℕ) (hB : ∀ idx, P (B idx)) (hsrc : ∀ i ∈ l, P (src i)) :
    ∀ idx, P ((l.foldl (fun B i => Function.update B (tgt i) (src i)) B) idx) := by
  induction l generalizing B with
  | nil => exact hB
  | cons a t ih =>
    simp only [List.foldl_cons]
    refine ih _ ?_ (fun i hi => hsrc i (List.mem_cons_of_mem _ hi))
    intro idx
    rw [Function.update_apply]
    by_cases h : idx = tgt a
    · rw [if_pos h]
      exact hsrc a (List.mem_cons_self _ _)
    · rw [if_neg h]
      exact hB idx

theorem foldl_update_read (l : List ℕ) (tgt src : ℕ → ℕ) (B : ℕ → ℕ) (idx : ℕ) :
    (l.foldl (fun B i => Function.update B (tgt i) (src i)) B) idx = B idx ∨
    ∃ i ∈ l, tgt i = idx ∧
      (l.foldl (fun B i => Function.update B (tgt i) (src i)) B) idx = src i := by
  induction l generalizing B with
  | nil => exact Or.inl rfl
  | cons a t ih =>
    simp only [List.foldl_cons]
    rcases ih (Function.update B (tgt a) (src a)) with h | ⟨i, hi, he, hv⟩
    · by_cases hh : idx = tgt a
      · refine Or.inr ⟨a, List.mem_cons_self _ _, hh.symm, ?_⟩
        rw [h, Function.update_apply, if_pos hh]
      · refine Or.inl ?_
        rw [h, Function.update_apply, if_neg hh]
    · exact Or.inr ⟨i, List.mem_cons_of_mem _ hi, he, hv⟩

theorem jStep_snd (llik oldL : ℕ → RVal) (oldB : ℕ → ℕ) (n k : ℕ)
    (st : (ℕ → RVal) × (ℕ → ℕ) × ℕ) (j : ℕ) :
    (jStep llik oldL oldB n k st j).2.1 =
      if RVal.lt RVal.neginf
          (innerScan llik oldL n j (iList k j) (RVal.neginf, st.2.2)).1 then
        Function.update
          ((List.range n).foldl
            (fun B i => Function.update B (j + i * n)
              (oldB ((innerScan llik oldL n j (iList k j) (RVal.neginf, st.2.2)).2 + i * n)))
            st.2.1)
          (j + (innerScan llik oldL n j (iList k j) (RVal.neginf, st.2.2)).2 * n) 1
      else st.2.1 := by
  rw [jStep]
  split
  · rfl
  · rfl

theorem jStep_inv (llik oldL : ℕ → RVal) (oldB : ℕ → ℕ) (n k : ℕ)
    (st : (ℕ → RVal) × (ℕ → ℕ) × ℕ) (j : ℕ) (hj : j < n)
    (hOld : BkOk n oldB) (hSt : BkOk n st.2.1) :
    BkOk n (jStep llik oldL oldB n k st j).2.1 := by
  rw [jStep_snd]
  by_cases hguard : RVal.lt RVal.neginf
      (innerScan llik oldL n j (iList k j) (RVal.neginf, st.2.2)).1 = true
  · rw [if_pos hguard]
    have hr2 : (innerScan llik oldL n j (iList k j) (RVal.neginf, st.2.2)).2 < n - 1 := by
      rcases innerScan_shape llik oldL n j (iList k j) RVal.neginf st.2.2 with
        hsh | ⟨i, hi, he, -⟩
      · rw [hsh] at hguard
        simp [RVal.lt] at hguard
      · have hb : 3 * k ≤ i ∧ i < 3 * k + (j - 1 - 3 * k) := by
          simpa [iList, List.mem_range'_1] using hi
        rw [he]
        simp only
        omega
    constructor
    · intro idx
      rw [Function.update_apply]
      by_cases hh : idx = j + (innerScan llik oldL n j (iList k j) (RVal.neginf, st.2.2)).2 * n
      · rw [if_pos hh]
        exact Or.inr rfl
      · rw [if_neg hh]
        exact foldl_update_pred (fun x => x = 0 ∨ x = 1) _ _ _ _ hSt.1
          (fun i _ => hOld.1 _) idx
    · intro q hq
      rw [Function.update_apply, if_neg (by
        intro he
        obtain ⟨e1, e2⟩ := flat_index_inj hq hj he
        omega)]
      rcases foldl_update_read (List.range n) (fun i => j + i * n)
          (fun i => oldB ((innerScan llik oldL n j (iList k j) (RVal.neginf, st.2.2)).2 + i * n))
          st.2.1 (q + (n - 1) * n) with h | ⟨i, hi, he, hv⟩
      · rw [h]
        exact hSt.2 q hq
      · obtain ⟨e1, e2⟩ := flat_index_inj hj hq he
        rw [hv, e2]
        exact hOld.2 _ (by omega)
  · rw [if_neg hguard]
    exact hSt

theorem jFold_inv (llik oldL : ℕ → RVal) (oldB : ℕ → ℕ) (n k : ℕ) (js : List ℕ) :
    ∀ st : (ℕ → RVal) × (ℕ → ℕ) × ℕ, (∀ j ∈ js, j < n) → BkOk n oldB → BkOk n st.2.1 →
    BkOk n ((js.foldl (jStep llik oldL oldB n k) st).2.1) := by
  induction js with
  | nil => intro st _ _ h; exact h
  | cons a t ih =>
    intro st hjs hOld hSt
    simp only [List.foldl_cons]
    exact ih _ (fun j hj => hjs j (List.mem_cons_of_mem _ hj)) hOld
      (jStep_inv _ _ _ _ _ _ _ (hjs a (List.mem_cons_self _ _)) hOld hSt)

theorem roundBody_inv (llik : ℕ → RVal) (n : ℕ) (s : GBState) (h2 : BkOk n s.newB) :
    BkOk n (roundBody llik n s).oldB ∧ BkOk n (roundBody llik n s).newB := by
  refine ⟨h2, ?_⟩
  show BkOk n ((jList (s.nbreaks + 1) n).foldl
    (jStep llik s.oldL s.newB n (s.nbreaks + 1)) (s.newL, s.newB, s.nbp)).2.1
  exact jFold_inv _ _ _ _ _ _ _ (fun j hj => (mem_jList.mp hj).2) h2 h2

theorem gbLoop_inv (llik : ℕ → RVal) (n : ℕ) :
    ∀ (fuel : ℕ) (s s2 : GBState), BkOk n s.oldB → BkOk n s.newB →
    gbLoop llik n fuel s = some s2 → BkOk n s2.oldB ∧ BkOk n s2.newB := by
  intro fuel
  induction fuel with
  | zero =>
    intro s s2 h1 h2 h
    rw [gbLoop] at h
    split at h
    · exact absurd h (by simp)
    · injection h with h
      subst h
      exact ⟨h1, h2⟩
  | succ m ih =>
    intro s s2 h1 h2 h
    rw [gbLoop] at h
    split at h
    · have hr := roundBody_inv llik n s h2
      exact ih _ _ hr.1 hr.2 h
    · injection h with h
      subst h
      exact ⟨h1, h2⟩

theorem gbLoop_stop (llik : ℕ → RVal) (n : ℕ) (fuel : ℕ) (s : GBState)
    (h : RVal.lt s.oldFull s.newFull = false) :
    gbLoop llik n fuel s = some s := by
  cases fuel with
  | zero =>
    rw [gbLoop, if_neg (by simp [h])]
  | succ m =>
    rw [gbLoop, if_neg (by simp [h])]

theorem roundBody_empty (llik : ℕ → RVal) (n : ℕ) (s : GBState)
    (h : n ≤ 3 * (s.nbreaks + 1) + 2) :
    roundBody llik n s =
      { nbreaks := s.nbreaks + 1, oldL := s.newL, newL := s.newL, oldB := s.newB,
        newB := s.newB, nbp := s.nbp, oldFull := s.newFull,
        newFull := s.newL (n - 1) } := by
  have he : jList (s.nbreaks + 1) n = [] := by
    rw [jList]
    have h0 : n - (3 * (s.nbreaks + 1) + 2) = 0 := by omega
    rw [h0]
    rfl
  rw [roundBody, he]
  rfl

theorem gbLoop_some (llik : ℕ → RVal) (n : ℕ) :
    ∀ (c : ℕ) (fuel : ℕ) (s : GBState), s.newFull = s.newL (n - 1) →
    n ≤ 3 * (s.nbreaks + c) + 2 → c + 1 ≤ fuel →
    ∃ s2, gbLoop llik n fuel s = some s2 := by
  intro c
  induction c with
  | zero =>
    intro fuel s hJ hn hf
    by_cases hc : RVal.lt s.oldFull s.newFull = true
    · obtain ⟨m, rfl⟩ : ∃ m, fuel = m + 1 := ⟨fuel - 1, by omega⟩
      rw [gbLoop, if_pos hc]
      refine ⟨roundBody llik n s, gbLoop_stop llik n m _ ?_⟩
      rw [roundBody_empty llik n s (by omega)]
      show RVal.lt s.newFull (s.newL (n - 1)) = false
      rw [← hJ]
      exact RVal.lt_irrefl _
    · exact ⟨s, gbLoop_stop llik n fuel s (by simpa using hc)⟩
  | succ c ih =>
    intro fuel s hJ hn hf
    by_cases hc : RVal.lt s.oldFull s.newFull = true
    · obtain ⟨m, rfl⟩ : ∃ m, fuel = m + 1 := ⟨fuel - 1, by omega⟩
      rw [gbLoop, if_pos hc]
      refine ih m (roundBody llik n s) rfl ?_ (by omega)
      show n ≤ 3 * (s.nbreaks + 1 + c) + 2
      omega
    · exact ⟨s, gbLoop_stop llik n fuel s (by simpa using hc)⟩

theorem get_breakpoints_total (llik : ℕ → RVal) (n : ℕ) :
    ∃ s2, gbLoop llik n (n + 1) (gbInit llik n) = some s2 := by
  by_cases hc : RVal.lt (gbInit llik n).oldFull (gbInit llik n).newFull = true
  · have h1 : gbLoop llik n (n + 1) (gbInit llik n)
        = gbLoop llik n n (roundBody llik n (gbInit llik n)) := by
      rw [gbLoop, if_pos hc]
    rw [h1]
    cases n with
    | zero =>
      refine ⟨roundBody llik 0 (gbInit llik 0), gbLoop_stop llik 0 0 _ ?_⟩
      rw [roundBody_empty llik 0 (gbInit llik 0) (by omega)]
      show RVal.lt (gbInit llik 0).newFull ((gbInit llik 0).newL (0 - 1)) = false
      exact RVal.lt_nan_right _
    | succ p =>
      refine gbLoop_some llik (p + 1) p (p + 1) (roundBody llik (p + 1) (gbInit llik (p + 1)))
        rfl ?_ (by omega)
      show p + 1 ≤ 3 * ((gbInit llik (p + 1)).nbreaks + 1 + p) + 2
      have e0 : (gbInit llik (p + 1)).nbreaks = 0 := rfl
      rw [e0]
      omega
  · exact ⟨_, gbLoop_stop llik n (n + 1) _ (by simpa using hc)⟩

/-- Claim C1, amended: for every n ≥ 1 the dynamic program terminates and
returns a length-n vector of 0/1 values, but the entry at position n-1 is
always 0 — the code never writes a 1 into row n-1 of a breakpoint list,
so no sentinel 1 is forced at the final position (the claim as stated
asserts it is always 1). -/
theorem claim_C1 (llik : ℕ → RVal) (n : ℕ) (hn : 1 ≤ n) :
    ∃ out : List ℕ, get_breakpoints llik n = some out ∧ out.length = n ∧
      (∀ x ∈ out, x = 0 ∨ x = 1) ∧ out.getD (n - 1) 0 = 0 := by
  obtain ⟨s2, hs2⟩ := get_breakpoints_total llik n
  have hinv := gbLoop_inv llik n (n + 1) (gbInit llik n) s2
    ⟨fun _ => Or.inl rfl, fun _ _ => rfl⟩ ⟨fun _ => Or.inl rfl, fun _ _ => rfl⟩ hs2
  refine ⟨(List.range n).map fun p => s2.oldB (n - 1 + p * n), ?_, ?_, ?_, ?_⟩
  · rw [get_breakpoints, hs2]
    rfl
  · simp
  · intro x hx
    simp only [List.mem_map, List.mem_range] at hx
    obtain ⟨p, -, rfl⟩ := hx
    exact hinv.1.1 _
  · rw [List.getD_eq_getElem?_getD, List.getElem?_map,
      List.getElem?_range (by omega : n - 1 < n)]
    show s2.oldB (n - 1 + (n - 1) * n) = 0
    exact hinv.1.2 (n - 1) (by omega)

/-- Counterexample to C1 as stated: at n = 2 with every likelihood entry
finite, the returned vector is [0, 0] — its entry at position n-1 = 1 is
0, not the claimed sentinel 1. -/
theorem claim_C1_counterexample :
    ¬ ∀ out : List ℕ, get_breakpoints (fun _ => RVal.fin 0) 2 = some out →
      out.getD (2 - 1) 0 = 1 := by
  intro h
  exact absurd (h [0, 0] (by decide)) (by decide)

/-- Witness for C1 at n = 1 with an all-NaN matrix. -/
theorem claim_C1_witness :
    ∃ out : List ℕ, get_breakpoints (fun _ => RVal.nan) 1 = some out ∧ out.length = 1 ∧
      (∀ x ∈ out, x = 0 ∨ x = 1) ∧ out.getD (1 - 1) 0 = 0 :=
  claim_C1 (fun _ => RVal.nan) 1 (by norm_num)
